import Mathlib

/-!
Verification of the dynamic PDF layout engine of
`app/pdf_report.py` (ReDent Nova customer-complaint mailer).

The engine is shallowly embedded:

* Text is `List Char`; Python's `str.strip()` / `str.split()` /
  newline normalisation are transcribed on `List Char`.
* ReportLab's `stringWidth(text, font, size)` is modelled by a
  per-character width table `Char → ℤ` (ReportLab's `stringWidth`
  for the Type-1 fonts used here is the sum of per-glyph widths,
  so additivity is faithful).
* Widths and coordinates are exact numbers in units of 1/127 of a
  point, so that all source constants are integers: the source
  works in points with `mm = 72 / 25.4 = 360/127` pt, hence here
  `pt = 127` and `mm = 360`; e.g. the source's `5.5 * mm` is the
  integer `1980` and `line_h * 1.5` is the integer `2970`.  Every
  arithmetic operation of the source is exact at these values
  (the divisions by 2 in the header land on even numbers), so the
  integer model computes the same reals the source computes.
* The ReportLab canvas is modelled as a trace recorder: each
  `drawString` / `rect` / `drawImage` / `setFont` / `showPage`
  call appends a `DrawCmd`; the engine state `PState` carries the
  vertical cursor `y`, the page counter `page` and the trace.
  The final `canvas.save()` is modelled by `canvas_save`, a
  function of the recorded trace AND of the wall-clock time: the
  source builds `canvas.Canvas(buf, pagesize=A4)` (line 151)
  without ReportLab's `invariant` flag, and with the default
  `rl_config.invariant = 0` the saved PDF embeds the wall-clock
  creation time (the `/CreationDate` field and the time-seeded
  document ID), so the byte buffer is a function of
  `(clock, trace)`, not of the trace alone.
* Ambient inputs of the source module (`os.path.exists(LOGO_PATH)`,
  the `DOC_VERSION` environment constant, the font-metric tables)
  are collected in an explicit `Env` record.
* The page geometry is fixed by the source to A4 with hard-coded
  margins; the record `Geom` abstracts only the page width/height
  so that the degenerate-geometry hypothetical of the spec can be
  stated, and `a4` instantiates the source's values.
-/

/-- Python whitespace test for the ASCII whitespace characters
(space, tab, newline, carriage return, vertical tab, form feed)
that `str.strip()` and `str.split()` treat as separators. -/
def pySpace (c : Char) : Bool :=
  c = ' ' || c = '\t' || c = '\n' || c = '\r' || c = Char.ofNat 11 || c = Char.ofNat 12

/-- Python `str.strip()` on a character list. -/
def stripChars (s : List Char) : List Char :=
  ((s.dropWhile pySpace).reverse.dropWhile pySpace).reverse

/-- Worker for `pyWords`: accumulates the current word reversed. -/
def pyWordsAux : List Char → List Char → List (List Char)
  | [], acc => if acc = [] then [] else [acc.reverse]
  | c :: rest, acc =>
    if pySpace c then
      if acc = [] then pyWordsAux rest [] else acc.reverse :: pyWordsAux rest []
    else pyWordsAux rest (c :: acc)

/-- Python `str.split()` with no argument: whitespace-delimited
tokens, empty tokens discarded. -/
def pyWords (s : List Char) : List (List Char) :=
  pyWordsAux s []

/-- The newline normalisation of `_wrap_text` line 33:
`s.replace("\r\n", "\n").replace("\r", "\n")`. -/
def normNewlines : List Char → List Char
  | [] => []
  | '\r' :: '\n' :: rest => '\n' :: normNewlines rest
  | '\r' :: rest => '\n' :: normNewlines rest
  | c :: rest => c :: normNewlines rest

/-- Python `s.split("\n")`: split on newline keeping empty pieces;
the result is never empty. -/
def splitNl : List Char → List (List Char)
  | [] => [[]]
  | '\n' :: rest => [] :: splitNl rest
  | c :: rest =>
    match splitNl rest with
    | [] => [[c]]
    | p :: ps => (c :: p) :: ps

/-- Measured width of a string under a per-character width table:
the model of ReportLab `stringWidth` for one (font, size) pair. -/
def strWidth (cw : Char → ℤ) (s : List Char) : ℤ :=
  (s.map cw).sum

/-- The hard-split inner loop of `_wrap_text` (lines 54-66): split an
over-wide word character by character.  State is (remaining word,
current chunk, lines emitted so far); returns (lines, final chunk). -/
def hardSplitAux (cw : Char → ℤ) (mw : ℤ) :
    List Char → List Char → List (List Char) → List (List Char) × List Char
  | [], chunk, lines => (lines, chunk)
  | ch :: rest, chunk, lines =>
    let trial2 := chunk ++ [ch]
    if strWidth cw trial2 ≤ mw then hardSplitAux cw mw rest trial2 lines
    else hardSplitAux cw mw rest [ch] (lines ++ if chunk = [] then [] else [chunk])

/-- The greedy word-packing loop of `_wrap_text` (lines 44-68).
State is (remaining words, lines emitted so far, current line);
returns (lines, final current line). -/
def packWordsAux (cw : Char → ℤ) (mw : ℤ) :
    List (List Char) → List (List Char) → List Char → List (List Char) × List Char
  | [], lines, cur => (lines, cur)
  | w :: ws, lines, cur =>
    let trial := stripChars (cur ++ ' ' :: w)
    if strWidth cw trial ≤ mw then packWordsAux cw mw ws lines trial
    else
      let lines1 := lines ++ if cur = [] then [] else [cur]
      if mw < strWidth cw w then
        let hs := hardSplitAux cw mw w [] lines1
        packWordsAux cw mw ws hs.1 (if hs.2 = [] then [] else hs.2)
      else packWordsAux cw mw ws lines1 w

/-- One iteration of the paragraph loop of `_wrap_text`
(lines 37-70): strip the paragraph, keep blank paragraphs as one
empty line, otherwise pack its words greedily and flush the last
current line. -/
def wrapParagraph (cw : Char → ℤ) (mw : ℤ) (p : List Char) : List (List Char) :=
  let ps := stripChars p
  if ps = [] then [[]]
  else
    let r := packWordsAux cw mw (pyWords ps) [] []
    r.1 ++ if r.2 = [] then [] else [r.2]

/-- Embedding of `_wrap_text(text, max_width, font_name, font_size)`
(pdf_report.py lines 25-72).  `none` models Python `None`; the
(font_name, font_size) pair is abstracted into its per-character
width table `cw`. -/
def wrap_text (text : Option (List Char)) (mw : ℤ) (cw : Char → ℤ) : List (List Char) :=
  match text with
  | none => [[]]
  | some t =>
    let s := normNewlines t
    let lines := (splitNl s).foldl (fun acc p => acc ++ wrapParagraph cw mw p) []
    if lines = [] then [[]] else lines

/-- Page geometry.  The source fixes `pagesize=A4` (line 151); the
page width/height are abstracted into this record only so that the
spec's degenerate-geometry hypothetical can be stated; `a4` is the
source's actual geometry and instantiates every claim about the
source behaviour. -/
structure Geom where
  pageW : ℤ
  pageH : ℤ
  deriving DecidableEq

/-- One PDF point in the model's 1/127-pt units. -/
def pt : ℤ := 127

/-- One millimetre: `72 / 25.4` points, exactly `360` in 1/127-pt
units (reportlab.lib.units.mm). -/
def mm : ℤ := 360

/-- The A4 page size used at line 151: 210 mm x 297 mm. -/
def a4 : Geom := ⟨210 * mm, 297 * mm⟩

/-- Source line 154: `margin_x = 18 * mm`. -/
def margin_x : ℤ := 18 * mm

/-- Source line 156: `bottom_margin = 18 * mm`. -/
def bottom_margin : ℤ := 18 * mm

/-- Source line 159: `line_h = 5.5 * mm` (exact: `1980`). -/
def line_h : ℤ := 11 * mm / 2

/-- Source line 160: `label_col_w = 70 * mm`. -/
def label_col_w : ℤ := 70 * mm

/-- Source line 161: `gap = 4 * mm`. -/
def gap : ℤ := 4 * mm

/-- Source line 155: `top_y = page_height - 18 * mm`. -/
def top_y (g : Geom) : ℤ := g.pageH - 18 * mm

/-- Source line 162:
`value_col_w = page_width - (2 * margin_x + label_col_w + gap)`. -/
def value_col_w (g : Geom) : ℤ := g.pageW - (2 * margin_x + label_col_w + gap)

/-- Source lines 165-170: typography constants. -/
def title_size : ℕ := 15

def section_size : ℕ := 11

def label_font : String := "Helvetica-Bold"

def value_font : String := "Helvetica"

def label_size : ℕ := 9

def value_size : ℕ := 9

/-- One canvas call.  Coordinates and lengths are in 1/127-pt
units; font sizes are kept as the literal point values of the
source.  `pageBreak` is `canvas.showPage()`. -/
inductive DrawCmd where
  | setFont (font : String) (size : ℕ)
  | text (x y : ℤ) (s : List Char)
  | textRight (x y : ℤ) (s : List Char)
  | textCentred (x y : ℤ) (s : List Char)
  | rect (x y w h : ℤ)
  | image (x y w h : ℤ)
  | strokeBlack
  | pageBreak
  deriving DecidableEq

/-- The mutable composition state of `build_pdf_bytes_dynamic`:
the cursor `y`, the page counter `page_num` (here `page`) and the
canvas trace accumulated so far. -/
structure PState where
  y : ℤ
  page : ℕ
  out : List DrawCmd
  deriving DecidableEq

/-- The ambient inputs the source module reads while composing the
drawing trace: whether `os.path.exists(LOGO_PATH)` holds, the
`DOC_VERSION` string, and the font metric tables behind
`stringWidth` (per font name and size, a per-character width).
One further ambient input is deliberately NOT in this record: the
wall-clock time that `canvas.save()` embeds in the output bytes
(the canvas is built at line 151 without `invariant=1`, and the
ReportLab default `rl_config.invariant = 0` stamps `/CreationDate`
and the time-seeded document ID into the buffer).  That clock does
not influence any drawing decision — only the byte serialisation —
and is modelled as the explicit `clock` argument of `canvas_save`. -/
structure Env where
  logoExists : Bool
  docVersion : List Char
  metrics : String → ℕ → Char → ℤ

/-- One entry of a section's `rows` list: a dict with optional
`label` and `value` keys (`none` models a missing key or `None`). -/
structure RowInput where
  label : Option (List Char)
  value : Option (List Char)
  deriving DecidableEq

/-- One entry of the `sections` argument. -/
structure SectionInput where
  title : Option (List Char)
  rows : Option (List RowInput)
  deriving DecidableEq

/-- The keyword arguments of `build_pdf_bytes_dynamic`. -/
structure DocInput where
  title : List Char
  complaint_id : List Char
  timestamp : List Char
  status : List Char
  contact_consent : List Char
  sections : List SectionInput
  deriving DecidableEq

/-- Python `str.upper()` (ASCII behaviour). -/
def pyUpper (s : List Char) : List Char := s.map Char.toUpper

/-- The footer page label `f"Page {page_num}"`. -/
def pageLabel (n : ℕ) : List Char := ("Page " ++ toString n).data

/-- Embedding of the closure `draw_footer` (lines 175-178). -/
def draw_footer (env : Env) (g : Geom) (st : PState) : PState :=
  { st with out := st.out ++
      [DrawCmd.setFont "Helvetica" 8,
       DrawCmd.text margin_x (12 * mm) env.docVersion,
       DrawCmd.textRight (g.pageW - margin_x) (12 * mm) (pageLabel st.page)] }

/-- Embedding of the closure `draw_header` (lines 194-232). -/
def draw_header (env : Env) (g : Geom) (d : DocInput) (st : PState) : PState :=
  let st1 :=
    if env.logoExists then
      let logo_w := 80 * mm
      let logo_h := 24 * mm
      let logo_x := (g.pageW - logo_w) / 2
      { st with out := st.out ++ [DrawCmd.image logo_x (st.y - logo_h) logo_w logo_h],
                y := st.y - (logo_h + 6 * mm) }
    else st
  let st2 := { st1 with
    out := st1.out ++ [DrawCmd.setFont "Helvetica-Bold" title_size,
                       DrawCmd.textCentred (g.pageW / 2) st1.y d.title],
    y := st1.y - 9 * mm }
  let box_w := g.pageW - 2 * margin_x
  let box_h := 22 * mm
  let box_x := margin_x
  let box_y := st2.y - box_h
  let left_x := box_x + 6 * pt
  let right_x := box_x + box_w / 2 + 6 * pt
  let txt_y := box_y + box_h - 8 * pt
  { st2 with
    out := st2.out
      ++ [DrawCmd.strokeBlack, DrawCmd.rect box_x box_y box_w box_h,
          DrawCmd.setFont "Helvetica" 10,
          DrawCmd.text left_x txt_y ("Complaint ID: ".data ++ d.complaint_id),
          DrawCmd.text right_x txt_y ("Status: ".data ++ d.status)]
      ++ (if d.timestamp ≠ [] then
            [DrawCmd.text left_x (txt_y - 11 * pt) ("Date: ".data ++ d.timestamp)]
          else [])
      ++ [DrawCmd.text right_x (txt_y - 11 * pt)
            ("Consent: ".data ++ pyUpper d.contact_consent)],
    y := box_y - 8 * mm }

/-- Embedding of the closure `new_page` (lines 180-187).  The
source's `with_header` parameter is `True` at its only call site
(`ensure_space`), so it is inlined here. -/
def new_page (env : Env) (g : Geom) (d : DocInput) (st : PState) : PState :=
  let st1 := draw_footer env g st
  draw_header env g d
    { y := top_y g, page := st1.page + 1, out := st1.out ++ [DrawCmd.pageBreak] }

/-- Embedding of the closure `ensure_space` (lines 189-192). -/
def ensure_space (env : Env) (g : Geom) (d : DocInput) (h : ℤ) (st : PState) : PState :=
  if st.y - h < bottom_margin then new_page env g d st else st

/-- Source line 240: `label = str(r.get("label") or "").strip()`
(a missing key, `None` and `""` all collapse to `""` before the
trim). -/
def rowLabelTrim (r : RowInput) : List Char :=
  stripChars (r.label.getD [])

/-- Source line 241:
`value = "" if r.get("value") is None else str(r.get("value")).strip()`. -/
def rowValueTrim (r : RowInput) : List Char :=
  match r.value with
  | none => []
  | some v => stripChars v

/-- The row filter of `draw_section` (lines 238-243): a row is kept
only when both the trimmed label and the trimmed value are
non-empty; the trimmed pair is returned. -/
def renderRow (r : RowInput) : Option (List Char × List Char) :=
  if rowLabelTrim r ≠ [] ∧ rowValueTrim r ≠ [] then
    some (rowLabelTrim r, rowValueTrim r)
  else none

/-- Source line 256: `label_block_h = max(line_h * len(label_lines), line_h)`. -/
def label_block_h (n : ℕ) : ℤ := max (line_h * n) line_h

/-- Source line 257:
`value_block_h = max(line_h * len(value_lines), line_h * 1.5)`
(`line_h * 1.5` is exactly `2970` in 1/127-pt units). -/
def value_block_h (n : ℕ) : ℤ := max (line_h * n) (line_h * 3 / 2)

/-- Source line 258: `row_h = max(label_block_h, value_block_h) + 2 * mm`. -/
def row_height (nl nv : ℕ) : ℤ := max (label_block_h nl) (value_block_h nv) + 2 * mm

/-- The label-drawing loop of lines 267-270: one `drawString` per
wrapped label line, descending by `line_h`. -/
def drawLines (x : ℤ) : ℤ → List (List Char) → List DrawCmd
  | _, [] => []
  | ly, ln :: rest => DrawCmd.text x ly ln :: drawLines x (ly - line_h) rest

/-- The value-drawing loop of lines 280-285: one `drawString` per
wrapped value line, descending by `line_h`, stopping (`break`) at
the first line whose baseline `ty` would fall below `box_y + 2`. -/
def drawValueLines (bx by_ : ℤ) : ℤ → List (List Char) → List DrawCmd
  | _, [] => []
  | ty, ln :: rest =>
    if ty < by_ + 2 * pt then []
    else DrawCmd.text (bx + 2 * pt) ty ln :: drawValueLines bx by_ (ty - line_h) rest

/-- Source line 253: the wrapped label lines of a row,
`_wrap_text(label, label_col_w - 2, label_font, label_size)`. -/
def labelLinesOf (env : Env) (label : List Char) : List (List Char) :=
  wrap_text (some label) (label_col_w - 2 * pt) (env.metrics label_font label_size)

/-- Source line 254: the wrapped value lines of a row,
`_wrap_text(value, value_col_w - 4, value_font, value_size)`. -/
def valueLinesOf (env : Env) (g : Geom) (value : List Char) : List (List Char) :=
  wrap_text (some value) (value_col_w g - 4 * pt) (env.metrics value_font value_size)

/-- The height reserved for a row at line 260:
`row_h + 2 * mm` with `row_h` computed from the wrapped lines. -/
def row_reserve (env : Env) (g : Geom) (lv : List Char × List Char) : ℤ :=
  row_height (labelLinesOf env lv.1).length (valueLinesOf env g lv.2).length + 2 * mm

/-- The canvas calls one row iteration emits after its
`ensure_space` (lines 262-285), as a function of the cursor
position `yTop` at which the row starts. -/
def rowSegment (env : Env) (g : Geom) (lv : List Char × List Char) (yTop : ℤ) : List DrawCmd :=
  let label_lines := labelLinesOf env lv.1
  let value_lines := valueLinesOf env g lv.2
  let row_h := row_height label_lines.length value_lines.length
  let row_bottom := yTop - row_h
  let box_x := margin_x + label_col_w + gap
  let box_y := row_bottom + 2 * pt
  let box_h := row_h - 4 * pt
  (DrawCmd.setFont label_font label_size
      :: drawLines margin_x (yTop - 2 * pt) label_lines)
    ++ [DrawCmd.strokeBlack, DrawCmd.rect box_x box_y (value_col_w g) box_h]
    ++ (DrawCmd.setFont value_font value_size
          :: drawValueLines box_x box_y (box_y + box_h - line_h) value_lines)

/-- One iteration of the row loop of `draw_section` (lines 252-287)
for an already-filtered `(label, value)` pair: reserve the row
height, then emit the row's drawing on the (possibly new) page and
advance the cursor past the row. -/
def draw_row (env : Env) (g : Geom) (d : DocInput) (st : PState)
    (lv : List Char × List Char) : PState :=
  let row_h := row_height (labelLinesOf env lv.1).length (valueLinesOf env g lv.2).length
  let st1 := ensure_space env g d (row_reserve env g lv) st
  { st1 with
    out := st1.out ++ rowSegment env g lv st1.y,
    y := st1.y - row_h - 2 * mm }

/-- Embedding of the closure `draw_section` (lines 234-289). -/
def draw_section (env : Env) (g : Geom) (d : DocInput)
    (section_title : List Char) (rows : List RowInput) (st : PState) : PState :=
  let filtered := rows.filterMap renderRow
  if filtered = [] then st
  else
    let st1 := ensure_space env g d (12 * mm) st
    let st2 := { st1 with
      out := st1.out ++ [DrawCmd.setFont "Helvetica-Bold" section_size,
                         DrawCmd.text margin_x st1.y section_title],
      y := st1.y - 7 * mm }
    let st3 := filtered.foldl (draw_row env g d) st2
    { st3 with y := st3.y - 4 * mm }

/-- Source line 294: `str(sec.get("title") or "Form Details").strip()
or "Form Details"`. -/
def sectionTitleOf (s : SectionInput) : List Char :=
  let t0 := match s.title with
    | none => "Form Details".data
    | some t => if t = [] then "Form Details".data else t
  let t1 := stripChars t0
  if t1 = [] then "Form Details".data else t1

/-- The initial composition state (lines 172-173):
`page_num = 1`, `y = top_y`, empty canvas. -/
def composeInit (g : Geom) : PState := { y := top_y g, page := 1, out := [] }

/-- The section loop of the composer (lines 293-297): fold
`draw_section` over the sections in document order. -/
def composeSections (env : Env) (g : Geom) (d : DocInput) (st : PState) : PState :=
  d.sections.foldl
    (fun st sec => draw_section env g d (sectionTitleOf sec) ((sec.rows).getD []) st) st

/-- Embedding of `build_pdf_bytes_dynamic` (lines 137-302) over an
arbitrary page geometry: header on page 1, the sections in order,
final footer; the result is the canvas trace that `canvas.save()`
serialises into the returned byte buffer. -/
def build_pdf_bytes_dynamicG (env : Env) (g : Geom) (d : DocInput) : List DrawCmd :=
  (draw_footer env g (composeSections env g d (draw_header env g d (composeInit g)))).out

/-- Embedding of `build_pdf_bytes_dynamic` at the source's actual
(A4) geometry. -/
def build_pdf_bytes_dynamic (env : Env) (d : DocInput) : List DrawCmd :=
  build_pdf_bytes_dynamicG env a4 d

/-! ### Basic facts about the drawing primitives -/

lemma pageBreak_not_in_drawLines (x : ℤ) :
    ∀ (ly : ℤ) (ls : List (List Char)), DrawCmd.pageBreak ∉ drawLines x ly ls := by
  intro ly ls
  induction ls generalizing ly with
  | nil => simp [drawLines]
  | cons l rest ih =>
    simp only [drawLines, List.mem_cons]
    rintro (h | h)
    · exact DrawCmd.noConfusion h
    · exact ih _ h

lemma pageBreak_not_in_drawValueLines (bx by_ : ℤ) :
    ∀ (ty : ℤ) (ls : List (List Char)), DrawCmd.pageBreak ∉ drawValueLines bx by_ ty ls := by
  intro ty ls
  induction ls generalizing ty with
  | nil => simp [drawValueLines]
  | cons l rest ih =>
    simp only [drawValueLines]
    split
    · simp
    · simp only [List.mem_cons]
      rintro (h | h)
      · exact DrawCmd.noConfusion h
      · exact ih _ h

lemma pageBreak_not_in_rowSegment (env : Env) (g : Geom) (lv : List Char × List Char)
    (yTop : ℤ) : DrawCmd.pageBreak ∉ rowSegment env g lv yTop := by
  simp [rowSegment, pageBreak_not_in_drawLines, pageBreak_not_in_drawValueLines]

lemma draw_footer_page (env : Env) (g : Geom) (st : PState) :
    (draw_footer env g st).page = st.page := rfl

lemma draw_footer_y (env : Env) (g : Geom) (st : PState) :
    (draw_footer env g st).y = st.y := rfl

lemma draw_header_page (env : Env) (g : Geom) (d : DocInput) (st : PState) :
    (draw_header env g d st).page = st.page := by
  simp only [draw_header]
  split <;> rfl

lemma draw_header_y_le (env : Env) (g : Geom) (d : DocInput) (st : PState) :
    (draw_header env g d st).y ≤ st.y := by
  simp only [draw_header, mm]
  split <;> simp <;> omega

lemma new_page_page (env : Env) (g : Geom) (d : DocInput) (st : PState) :
    (new_page env g d st).page = st.page + 1 := by
  simp only [new_page, draw_header_page, draw_footer_page]

lemma ensure_space_of_fits (env : Env) (g : Geom) (d : DocInput) (h : ℤ) (st : PState)
    (hc : bottom_margin ≤ st.y - h) : ensure_space env g d h st = st := by
  simp [ensure_space, not_lt.mpr hc]

lemma ensure_space_of_break (env : Env) (g : Geom) (d : DocInput) (h : ℤ) (st : PState)
    (hc : st.y - h < bottom_margin) :
    ensure_space env g d h st
      = draw_header env g d
          ⟨top_y g, st.page + 1, (draw_footer env g st).out ++ [DrawCmd.pageBreak]⟩ := by
  simp [ensure_space, hc, new_page, draw_footer]

lemma ensure_space_page (env : Env) (g : Geom) (d : DocInput) (h : ℤ) (st : PState) :
    ((ensure_space env g d h st).page = st.page ∧ ensure_space env g d h st = st)
      ∨ ((ensure_space env g d h st).page = st.page + 1 ∧ st.y - h < bottom_margin) := by
  by_cases hc : st.y - h < bottom_margin
  · right
    refine ⟨?_, hc⟩
    simp [ensure_space, hc, new_page_page]
  · left
    simp [ensure_space, hc]

lemma line_h_pos : (0 : ℤ) < line_h := by decide

lemma row_height_pos (nl nv : ℕ) : 0 < row_height nl nv := by
  have h1 : line_h ≤ label_block_h nl := le_max_right _ _
  have h2 : label_block_h nl ≤ max (label_block_h nl) (value_block_h nv) := le_max_left _ _
  have := line_h_pos
  simp only [row_height, mm] at *
  omega

/-! ### C1: determinism of the composition -/

/-- A fixed concrete environment used by witnesses: no logo file,
a one-character `DOC_VERSION`, all glyphs 100/127 pt wide. -/
def env0 : Env := ⟨false, "v".data, fun _ _ _ => 100⟩

/-- A small concrete document used by witnesses: one section with
one renderable row. -/
def doc0 : DocInput :=
  ⟨"T".data, "C".data, "D".data, "open".data, "yes".data,
   [⟨some "S".data, some [⟨some "L".data, some "V".data⟩]⟩]⟩

/-- Schematic byte rendering of one recorded canvas call: a tag,
the numeric fields and the character codes of any drawn text.  The
exact encoding of the body is immaterial to C1; what matters is
that the body is a function of the trace alone. -/
def encodeCmd : DrawCmd → List ℕ
  | DrawCmd.setFont f s => [0, s] ++ f.data.map Char.toNat
  | DrawCmd.text x y s => [1, x.natAbs, y.natAbs] ++ s.map Char.toNat
  | DrawCmd.textRight x y s => [2, x.natAbs, y.natAbs] ++ s.map Char.toNat
  | DrawCmd.textCentred x y s => [3, x.natAbs, y.natAbs] ++ s.map Char.toNat
  | DrawCmd.rect x y w h => [4, x.natAbs, y.natAbs, w.natAbs, h.natAbs]
  | DrawCmd.image x y w h => [5, x.natAbs, y.natAbs, w.natAbs, h.natAbs]
  | DrawCmd.strokeBlack => [6]
  | DrawCmd.pageBreak => [7]

/-- Model of `canvas.save()` for the canvas built at line 151.
The source passes no `invariant` flag to `canvas.Canvas`, and under
the ReportLab default `rl_config.invariant = 0` the saved buffer
embeds the wall-clock creation time: the `/CreationDate` entry and
the time-seeded document ID.  The buffer is therefore a function of
the pair (wall-clock reading, recorded trace); the `clock` value
stands for the timestamp material and the encoded trace for the
page content.  A fresh wall-clock reading is taken at every
invocation, so `clock` varies between two calls even at identical
arguments. -/
def canvas_save (clock : ℕ) (trace : List DrawCmd) : List ℕ :=
  clock :: (trace.map encodeCmd).flatten

/-- The byte buffer `build_pdf_bytes_dynamic` returns: the recorded
trace of the composition, serialised by `canvas.save()` at the
wall-clock reading current during the call. -/
def build_pdf_bytes_dynamic_bytes (env : Env) (clock : ℕ) (d : DocInput) : List ℕ :=
  canvas_save clock (build_pdf_bytes_dynamic env d)

/-- C1 (counterexample): the claim says two invocations of
`build_pdf_bytes_dynamic` with identical arguments return
byte-identical buffers.  They do not: the canvas is built without
`invariant=1`, so `canvas.save()` stamps the wall-clock time into
the buffer, and the same environment and document serialised at two
different wall-clock readings give different byte streams. -/
theorem C1_counterexample :
    build_pdf_bytes_dynamic_bytes env0 0 doc0
      ≠ build_pdf_bytes_dynamic_bytes env0 1 doc0 := by
  decide

/-- C1 (amended): the composition itself is deterministic — with
the configuration fixed, identical arguments yield the identical
sequence of drawing operations — and the output buffers of two
invocations with identical arguments are byte-identical exactly
when the wall-clock readings embedded by `canvas.save()` also
coincide (which the source, lacking `invariant=1`, does not
guarantee between calls). -/
theorem C1_bytes_deterministic_given_clock :
    ∀ (env : Env) (clock clock' : ℕ) (d d' : DocInput), d = d' →
      (build_pdf_bytes_dynamic env d = build_pdf_bytes_dynamic env d')
      ∧ (build_pdf_bytes_dynamic_bytes env clock d
            = build_pdf_bytes_dynamic_bytes env clock' d'
          ↔ clock = clock') := by
  intro env clock clock' d d' hdd
  subst hdd
  refine ⟨rfl, ?_, ?_⟩
  · intro h
    have hh := congrArg List.head? h
    simpa [build_pdf_bytes_dynamic_bytes, canvas_save] using hh
  · intro h
    rw [h]

/-- Witness for C1: at equal clocks the buffers agree, and the
hypothesis `doc0 = doc0` is discharged concretely. -/
theorem C1_bytes_deterministic_given_clock_witness :
    doc0 = doc0
    ∧ (build_pdf_bytes_dynamic env0 doc0 = build_pdf_bytes_dynamic env0 doc0)
    ∧ (build_pdf_bytes_dynamic_bytes env0 3 doc0
          = build_pdf_bytes_dynamic_bytes env0 3 doc0
        ↔ (3 : ℕ) = 3) :=
  ⟨rfl, C1_bytes_deterministic_given_clock env0 3 3 doc0 doc0 rfl⟩

/-! ### C2: the minimum value-box height is not per-field -/

/-- C2 (counterexample): the claim says the value-block height is
`max(wrapped-value line count x line height, minimumBoxHeight)`
with `minimumBoxHeight` larger for long-text fields than for short
fields.  The source (line 257) applies the same
`max(line_h * len(value_lines), line_h * 1.5)` to every row, so no
pair of per-category minimums with `short < long` can reproduce the
computed heights: evaluating at a one-line value forces both
minimums to equal `1.5 * line_h`. -/
theorem C2_counterexample :
    ¬ ∃ mLong mShort : ℤ, mShort < mLong
      ∧ (∀ n : ℕ, 1 ≤ n → value_block_h n = max (line_h * (n : ℤ)) mLong)
      ∧ (∀ n : ℕ, 1 ≤ n → value_block_h n = max (line_h * (n : ℤ)) mShort) := by
  rintro ⟨mLong, mShort, hlt, hL, hS⟩
  have h1 := hL 1 le_rfl
  have h2 := hS 1 le_rfl
  have e1 : value_block_h 1 = 2970 := by decide
  have e2 : line_h * ((1 : ℕ) : ℤ) = 1980 := by decide
  rw [e1, e2] at h1 h2
  rcases max_cases (1980 : ℤ) mLong with ⟨ha, hb⟩ | ⟨ha, hb⟩ <;>
    rcases max_cases (1980 : ℤ) mShort with ⟨hc, hd⟩ | ⟨hc, hd⟩ <;> omega

/-- C2 (amended): for every renderable row the value block height is
`max(wrapped-value line count x line height, 1.5 x line height)`:
the minimum box height is the same constant `1.5 * line_h` for
every row, independent of the row's field; there is no long-text /
short-field distinction in the source. -/
theorem C2_uniform_minimum :
    (∀ (env : Env) (g : Geom) (lv : List Char × List Char),
        row_reserve env g lv
          = max (max (line_h * ((labelLinesOf env lv.1).length : ℤ)) line_h)
              (max (line_h * ((valueLinesOf env g lv.2).length : ℤ)) (line_h * 3 / 2))
            + 2 * mm + 2 * mm)
    ∧ ∀ n : ℕ, value_block_h n = max (line_h * (n : ℤ)) (line_h * 3 / 2) := by
  constructor
  · intro env g lv
    simp [row_reserve, row_height, label_block_h, value_block_h]
  · intro n
    simp [value_block_h]

/-! ### C9: degenerate geometry is not rejected -/

/-- Does a command draw visible ink (text, rectangle or image)? -/
def isInk : DrawCmd → Bool
  | DrawCmd.text _ _ _ => true
  | DrawCmd.textRight _ _ _ => true
  | DrawCmd.textCentred _ _ _ => true
  | DrawCmd.rect _ _ _ _ => true
  | DrawCmd.image _ _ _ _ => true
  | _ => false

/-- C9 (counterexample): the claim says degenerate geometry (a
zero-height page) is treated as a fatal configuration error,
rejected at composer start before any drawing.  The composer has no
validation and no failure path at all (its embedding is a total
function into traces): run with a zero-height page it happily draws
(ink commands appear in the trace) and pages forever forward
(a page break per block) instead of rejecting. -/
theorem C9_counterexample :
    (build_pdf_bytes_dynamicG env0 ⟨210 * mm, 0⟩ doc0).filter isInk ≠ []
      ∧ DrawCmd.pageBreak ∈ build_pdf_bytes_dynamicG env0 ⟨210 * mm, 0⟩ doc0 := by
  constructor
  · decide
  · decide

/-- C9 (amended): the composer performs no geometry validation;
instead its geometry is hard-coded (A4 page, fixed margins and
column widths), and under that geometry both wrap widths passed to
`_wrap_text` (`label_col_w - 2` and `value_col_w - 4`) are strictly
positive and the page is not degenerate, so the degenerate case can
never arise in a run of the source. -/
theorem C9_hardcoded_geometry_valid :
    0 < label_col_w - 2 * pt ∧ 0 < value_col_w a4 - 4 * pt
      ∧ 0 < a4.pageH ∧ bottom_margin < top_y a4 := by
  decide

/-! ### C4: a row never spans two pages -/

/-- C4: A row is never split across a page boundary: all of a
renderable row's drawing (label lines, bordered value box, value
lines) is emitted as one contiguous page-break-free segment placed
after the single `ensure_space(row_h + 2mm)` call, so it lands
entirely on one page: the page the row starts on, or, when that
reservation triggered the break, entirely on the next page. -/
theorem C4_row_never_split :
    ∀ (env : Env) (g : Geom) (d : DocInput) (st : PState) (lv : List Char × List Char),
      (draw_row env g d st lv).out
          = (ensure_space env g d (row_reserve env g lv) st).out
            ++ rowSegment env g lv (ensure_space env g d (row_reserve env g lv) st).y
      ∧ DrawCmd.pageBreak
          ∉ rowSegment env g lv (ensure_space env g d (row_reserve env g lv) st).y
      ∧ ((ensure_space env g d (row_reserve env g lv) st).page = st.page
          ∨ (ensure_space env g d (row_reserve env g lv) st).page = st.page + 1)
      ∧ (draw_row env g d st lv).page
          = (ensure_space env g d (row_reserve env g lv) st).page := by
  intro env g d st lv
  refine ⟨rfl, pageBreak_not_in_rowSegment _ _ _ _, ?_, rfl⟩
  rcases ensure_space_page env g d (row_reserve env g lv) st with ⟨h, _⟩ | ⟨h, _⟩
  · exact Or.inl h
  · exact Or.inr h

/-! ### C8: silent truncation of overflowing value lines -/

/-- The value loop of lines 280-285 with its `break` guard removed:
draws every given line.  Only used to say which prefix of the
wrapped value lines the guarded loop actually draws. -/
def drawValueAll (bx : ℤ) : ℤ → List (List Char) → List DrawCmd
  | _, [] => []
  | ty, ln :: rest => DrawCmd.text (bx + 2 * pt) ty ln :: drawValueAll bx (ty - line_h) rest

lemma drawValueLines_take (bx by_ : ℤ) :
    ∀ (ls : List (List Char)) (ty : ℤ), ∃ k, k ≤ ls.length
      ∧ drawValueLines bx by_ ty ls = drawValueAll bx ty (ls.take k)
      ∧ (k = ls.length ∨ ty - (k : ℤ) * line_h < by_ + 2 * pt) := by
  intro ls
  induction ls with
  | nil =>
    intro ty
    exact ⟨0, Nat.le_refl 0, rfl, Or.inl rfl⟩
  | cons l rest ih =>
    intro ty
    by_cases hty : ty < by_ + 2 * pt
    · refine ⟨0, Nat.zero_le _, ?_, Or.inr ?_⟩
      · simp [drawValueLines, hty, drawValueAll]
      · simpa using hty
    · obtain ⟨k, hk, he, hg⟩ := ih (ty - line_h)
      refine ⟨k + 1, by simpa using hk, ?_, ?_⟩
      · rw [List.take_succ_cons]
        simp only [drawValueLines, if_neg hty, drawValueAll]
        rw [he]
      · rcases hg with h | h
        · exact Or.inl (by simp [h])
        · refine Or.inr ?_
          have hcast : ((k + 1 : ℕ) : ℤ) = (k : ℤ) + 1 := by push_cast; ring
          rw [hcast]
          have harith : ty - ((k : ℤ) + 1) * line_h = ty - line_h - (k : ℤ) * line_h := by
            ring
          rw [harith]
          exact h

/-- C8: When a row's wrapped value has more lines than its bordered
rectangle can hold, the excess lines are silently not drawn
(no error, no page break for them), and the label, the rectangle
and the remaining value lines of that row still render normally:
the row's segment is exactly the full label lines, the rectangle,
and the prefix of the value lines whose baselines stay above the
box bottom; the first dropped line (if any) is dropped because its
baseline would fall below `box_y + 2`. -/
theorem C8_value_overflow_truncated :
    ∀ (env : Env) (g : Geom) (d : DocInput) (st : PState) (lv : List Char × List Char),
      ∃ k, k ≤ (valueLinesOf env g lv.2).length
        ∧ (draw_row env g d st lv).out
            = (ensure_space env g d (row_reserve env g lv) st).out
              ++ ((DrawCmd.setFont label_font label_size
                    :: drawLines margin_x
                        ((ensure_space env g d (row_reserve env g lv) st).y - 2 * pt)
                        (labelLinesOf env lv.1))
                ++ [DrawCmd.strokeBlack,
                    DrawCmd.rect (margin_x + label_col_w + gap)
                      ((ensure_space env g d (row_reserve env g lv) st).y
                          - row_height (labelLinesOf env lv.1).length
                              (valueLinesOf env g lv.2).length + 2 * pt)
                      (value_col_w g)
                      (row_height (labelLinesOf env lv.1).length
                          (valueLinesOf env g lv.2).length - 4 * pt)]
                ++ (DrawCmd.setFont value_font value_size
                      :: drawValueAll (margin_x + label_col_w + gap)
                          ((ensure_space env g d (row_reserve env g lv) st).y
                              - 2 * pt - line_h)
                          ((valueLinesOf env g lv.2).take k)))
        ∧ (k = (valueLinesOf env g lv.2).length
            ∨ ((ensure_space env g d (row_reserve env g lv) st).y - 2 * pt - line_h)
                  - (k : ℤ) * line_h
                < ((ensure_space env g d (row_reserve env g lv) st).y
                      - row_height (labelLinesOf env lv.1).length
                          (valueLinesOf env g lv.2).length + 2 * pt) + 2 * pt)
        ∧ DrawCmd.pageBreak
            ∉ rowSegment env g lv (ensure_space env g d (row_reserve env g lv) st).y := by
  intro env g d st lv
  obtain ⟨k, hk, he, hg⟩ :=
    drawValueLines_take (margin_x + label_col_w + gap)
      ((ensure_space env g d (row_reserve env g lv) st).y
          - row_height (labelLinesOf env lv.1).length (valueLinesOf env g lv.2).length
          + 2 * pt)
      (valueLinesOf env g lv.2)
      ((ensure_space env g d (row_reserve env g lv) st).y - 2 * pt - line_h)
  refine ⟨k, hk, ?_, hg, pageBreak_not_in_rowSegment _ _ _ _⟩
  have hseg : (draw_row env g d st lv).out
      = (ensure_space env g d (row_reserve env g lv) st).out
        ++ rowSegment env g lv (ensure_space env g d (row_reserve env g lv) st).y := rfl
  rw [hseg]
  congr 1
  simp only [rowSegment]
  have hty : (ensure_space env g d (row_reserve env g lv) st).y
        - row_height (labelLinesOf env lv.1).length (valueLinesOf env g lv.2).length
        + 2 * pt
      + (row_height (labelLinesOf env lv.1).length (valueLinesOf env g lv.2).length
          - 4 * pt) - line_h
      = (ensure_space env g d (row_reserve env g lv) st).y - 2 * pt - line_h := by
    ring
  rw [hty, he]

/-! ### C3: page-break mechanics and cursor/page invariants -/

lemma draw_row_page (env : Env) (g : Geom) (d : DocInput) (st : PState)
    (lv : List Char × List Char) :
    (draw_row env g d st lv).page
      = (ensure_space env g d (row_reserve env g lv) st).page := rfl

lemma draw_row_page_mono (env : Env) (g : Geom) (d : DocInput) (st : PState)
    (lv : List Char × List Char) : st.page ≤ (draw_row env g d st lv).page := by
  rw [draw_row_page]
  rcases ensure_space_page env g d (row_reserve env g lv) st with ⟨h, _⟩ | ⟨h, _⟩ <;> omega

lemma draw_row_y_of_page_eq (env : Env) (g : Geom) (d : DocInput) (st : PState)
    (lv : List Char × List Char) (hp : (draw_row env g d st lv).page = st.page) :
    (draw_row env g d st lv).y ≤ st.y := by
  rcases ensure_space_page env g d (row_reserve env g lv) st with ⟨_, heq⟩ | ⟨hpe, _⟩
  · have hy : (draw_row env g d st lv).y
        = (ensure_space env g d (row_reserve env g lv) st).y
          - row_height (labelLinesOf env lv.1).length (valueLinesOf env g lv.2).length
          - 2 * mm := rfl
    rw [hy, heq]
    have := row_height_pos (labelLinesOf env lv.1).length (valueLinesOf env g lv.2).length
    simp only [mm] at *
    omega
  · rw [draw_row_page] at hp
    omega

lemma foldl_rows_page_mono (env : Env) (g : Geom) (d : DocInput) :
    ∀ (l : List (List Char × List Char)) (st : PState),
      st.page ≤ (l.foldl (draw_row env g d) st).page := by
  intro l
  induction l with
  | nil => intro st; exact Nat.le_refl _
  | cons lv rest ih =>
    intro st
    exact Nat.le_trans (draw_row_page_mono env g d st lv) (ih (draw_row env g d st lv))

lemma foldl_rows_y_of_page_eq (env : Env) (g : Geom) (d : DocInput) :
    ∀ (l : List (List Char × List Char)) (st : PState),
      (l.foldl (draw_row env g d) st).page = st.page →
      (l.foldl (draw_row env g d) st).y ≤ st.y := by
  intro l
  induction l with
  | nil => intro st _; exact le_rfl
  | cons lv rest ih =>
    intro st hp
    simp only [List.foldl_cons] at hp ⊢
    have h1 := draw_row_page_mono env g d st lv
    have h2 := foldl_rows_page_mono env g d rest (draw_row env g d st lv)
    have hmid : (draw_row env g d st lv).page = st.page := by omega
    exact le_trans (ih (draw_row env g d st lv) (by omega))
      (draw_row_y_of_page_eq env g d st lv hmid)

lemma draw_section_page_mono (env : Env) (g : Geom) (d : DocInput)
    (t : List Char) (rows : List RowInput) (st : PState) :
    st.page ≤ (draw_section env g d t rows st).page := by
  simp only [draw_section]
  split
  · exact Nat.le_refl _
  · have h1 : st.page ≤ (ensure_space env g d (12 * mm) st).page := by
      rcases ensure_space_page env g d (12 * mm) st with ⟨h, _⟩ | ⟨h, _⟩ <;> omega
    have h2 := foldl_rows_page_mono env g d (rows.filterMap renderRow)
      { ensure_space env g d (12 * mm) st with
        out := (ensure_space env g d (12 * mm) st).out
          ++ [DrawCmd.setFont "Helvetica-Bold" section_size,
              DrawCmd.text margin_x (ensure_space env g d (12 * mm) st).y t],
        y := (ensure_space env g d (12 * mm) st).y - 7 * mm }
    exact Nat.le_trans h1 h2

lemma draw_section_page_of_ne (env : Env) (g : Geom) (d : DocInput)
    (t : List Char) (rows : List RowInput) (st : PState)
    (hne : rows.filterMap renderRow ≠ []) :
    (draw_section env g d t rows st).page
      = ((rows.filterMap renderRow).foldl (draw_row env g d)
          ⟨(ensure_space env g d (12 * mm) st).y - 7 * mm,
           (ensure_space env g d (12 * mm) st).page,
           (ensure_space env g d (12 * mm) st).out
             ++ [DrawCmd.setFont "Helvetica-Bold" section_size,
                 DrawCmd.text margin_x (ensure_space env g d (12 * mm) st).y t]⟩).page := by
  simp only [draw_section, if_neg hne]

lemma draw_section_y_of_ne (env : Env) (g : Geom) (d : DocInput)
    (t : List Char) (rows : List RowInput) (st : PState)
    (hne : rows.filterMap renderRow ≠ []) :
    (draw_section env g d t rows st).y
      = ((rows.filterMap renderRow).foldl (draw_row env g d)
          ⟨(ensure_space env g d (12 * mm) st).y - 7 * mm,
           (ensure_space env g d (12 * mm) st).page,
           (ensure_space env g d (12 * mm) st).out
             ++ [DrawCmd.setFont "Helvetica-Bold" section_size,
                 DrawCmd.text margin_x (ensure_space env g d (12 * mm) st).y t]⟩).y
        - 4 * mm := by
  simp only [draw_section, if_neg hne]

lemma draw_section_y_of_page_eq (env : Env) (g : Geom) (d : DocInput)
    (t : List Char) (rows : List RowInput) (st : PState)
    (hp : (draw_section env g d t rows st).page = st.page) :
    (draw_section env g d t rows st).y ≤ st.y := by
  by_cases hne : rows.filterMap renderRow = []
  · simp [draw_section, hne]
  · have hpage := draw_section_page_of_ne env g d t rows st hne
    have hy := draw_section_y_of_ne env g d t rows st hne
    rw [hpage] at hp
    rw [hy]
    have hmono := foldl_rows_page_mono env g d (rows.filterMap renderRow)
      ⟨(ensure_space env g d (12 * mm) st).y - 7 * mm,
       (ensure_space env g d (12 * mm) st).page,
       (ensure_space env g d (12 * mm) st).out
         ++ [DrawCmd.setFont "Helvetica-Bold" section_size,
             DrawCmd.text margin_x (ensure_space env g d (12 * mm) st).y t]⟩
    rcases ensure_space_page env g d (12 * mm) st with ⟨hpe, heq⟩ | ⟨hpe, _⟩
    · have hlitpage : (⟨(ensure_space env g d (12 * mm) st).y - 7 * mm,
          (ensure_space env g d (12 * mm) st).page,
          (ensure_space env g d (12 * mm) st).out
            ++ [DrawCmd.setFont "Helvetica-Bold" section_size,
                DrawCmd.text margin_x (ensure_space env g d (12 * mm) st).y t]⟩
            : PState).page = st.page := hpe
      have hfoldpage : ((rows.filterMap renderRow).foldl (draw_row env g d)
          ⟨(ensure_space env g d (12 * mm) st).y - 7 * mm,
           (ensure_space env g d (12 * mm) st).page,
           (ensure_space env g d (12 * mm) st).out
             ++ [DrawCmd.setFont "Helvetica-Bold" section_size,
                 DrawCmd.text margin_x (ensure_space env g d (12 * mm) st).y t]⟩).page
          = (⟨(ensure_space env g d (12 * mm) st).y - 7 * mm,
              (ensure_space env g d (12 * mm) st).page,
              (ensure_space env g d (12 * mm) st).out
                ++ [DrawCmd.setFont "Helvetica-Bold" section_size,
                    DrawCmd.text margin_x (ensure_space env g d (12 * mm) st).y t]⟩
                : PState).page := by omega
      have hfy := foldl_rows_y_of_page_eq env g d (rows.filterMap renderRow)
        ⟨(ensure_space env g d (12 * mm) st).y - 7 * mm,
         (ensure_space env g d (12 * mm) st).page,
         (ensure_space env g d (12 * mm) st).out
           ++ [DrawCmd.setFont "Helvetica-Bold" section_size,
               DrawCmd.text margin_x (ensure_space env g d (12 * mm) st).y t]⟩ hfoldpage
      have hlity : (⟨(ensure_space env g d (12 * mm) st).y - 7 * mm,
          (ensure_space env g d (12 * mm) st).page,
          (ensure_space env g d (12 * mm) st).out
            ++ [DrawCmd.setFont "Helvetica-Bold" section_size,
                DrawCmd.text margin_x (ensure_space env g d (12 * mm) st).y t]⟩
            : PState).y = (ensure_space env g d (12 * mm) st).y - 7 * mm := rfl
      have hesy : (ensure_space env g d (12 * mm) st).y = st.y := by rw [heq]
      have hmm : mm = 360 := rfl
      omega
    · exfalso
      have hlitpage : (⟨(ensure_space env g d (12 * mm) st).y - 7 * mm,
          (ensure_space env g d (12 * mm) st).page,
          (ensure_space env g d (12 * mm) st).out
            ++ [DrawCmd.setFont "Helvetica-Bold" section_size,
                DrawCmd.text margin_x (ensure_space env g d (12 * mm) st).y t]⟩
            : PState).page = st.page + 1 := hpe
      omega

lemma composeSections_page_mono (env : Env) (g : Geom) (d : DocInput) :
    ∀ (secs : List SectionInput) (st : PState),
      st.page ≤ (secs.foldl
        (fun st sec => draw_section env g d (sectionTitleOf sec) ((sec.rows).getD []) st)
        st).page := by
  intro secs
  induction secs with
  | nil => intro st; exact Nat.le_refl _
  | cons sec rest ih =>
    intro st
    exact Nat.le_trans (draw_section_page_mono env g d (sectionTitleOf sec)
      ((sec.rows).getD []) st) (ih _)

/-- C3: `ensure_space(h)` breaks the page exactly when drawing a
block of height `h` at the cursor would cross the bottom margin; a
break draws the footer, emits the page break, increments the page
number by exactly one, resets the cursor to the top content offset
and redraws the header; otherwise the state is unchanged.
Consequently the page number starts at 1 (`composeInit`), never
decreases through any section, and within a page (no break) the
cursor only moves downward. -/
theorem C3_page_cursor_invariants :
    ∀ (env : Env) (g : Geom) (d : DocInput) (h : ℤ) (st : PState)
      (t : List Char) (rows : List RowInput),
      (st.y - h < bottom_margin →
        ensure_space env g d h st
          = draw_header env g d
              ⟨top_y g, st.page + 1, (draw_footer env g st).out ++ [DrawCmd.pageBreak]⟩)
      ∧ (bottom_margin ≤ st.y - h → ensure_space env g d h st = st)
      ∧ ((ensure_space env g d h st).page = st.page ∧ ensure_space env g d h st = st
          ∨ (ensure_space env g d h st).page = st.page + 1 ∧ st.y - h < bottom_margin)
      ∧ (composeInit g).page = 1
      ∧ st.page ≤ (draw_section env g d t rows st).page
      ∧ ((draw_section env g d t rows st).page = st.page →
            (draw_section env g d t rows st).y ≤ st.y)
      ∧ 1 ≤ (composeSections env g d (draw_header env g d (composeInit g))).page := by
  intro env g d h st t rows
  refine ⟨ensure_space_of_break env g d h st, ensure_space_of_fits env g d h st,
    ensure_space_page env g d h st, rfl,
    draw_section_page_mono env g d t rows st,
    draw_section_y_of_page_eq env g d t rows st, ?_⟩
  have h1 : (draw_header env g d (composeInit g)).page = 1 := by
    rw [draw_header_page]
    rfl
  have h2 := composeSections_page_mono env g d d.sections
    (draw_header env g d (composeInit g))
  simp only [composeSections]
  omega

/-- Witness for C3: a breaking call at `y = 0`, a fitting call at
the top of an A4 page, and a section call that keeps the page. -/
theorem C3_page_cursor_invariants_witness :
    (((0 : ℤ) - 1 < bottom_margin)
      ∧ ensure_space env0 a4 doc0 1 ⟨0, 1, []⟩
          = draw_header env0 a4 doc0
              ⟨top_y a4, 1 + 1, (draw_footer env0 a4 ⟨0, 1, []⟩).out ++ [DrawCmd.pageBreak]⟩)
    ∧ ((bottom_margin ≤ top_y a4 - 1)
      ∧ ensure_space env0 a4 doc0 1 ⟨top_y a4, 1, []⟩ = ⟨top_y a4, 1, []⟩)
    ∧ ((draw_section env0 a4 doc0 "T".data [] ⟨top_y a4, 1, []⟩).page = 1
      ∧ (draw_section env0 a4 doc0 "T".data [] ⟨top_y a4, 1, []⟩).y ≤ top_y a4) :=
  ⟨⟨by decide,
      (C3_page_cursor_invariants env0 a4 doc0 1 ⟨0, 1, []⟩ "T".data []).1 (by decide)⟩,
   ⟨by decide,
      (C3_page_cursor_invariants env0 a4 doc0 1 ⟨top_y a4, 1, []⟩ "T".data []).2.1
        (by decide)⟩,
   ⟨by decide,
      (C3_page_cursor_invariants env0 a4 doc0 1 ⟨top_y a4, 1, []⟩ "T".data
        []).2.2.2.2.2.1 (by decide)⟩⟩

/-! ### C7: empty rows and empty sections draw nothing -/

/-- C7: A row whose label or value is empty after trimming is
silently dropped: its `renderRow` is `none`, prepending it to a
section changes nothing about the section's rendering, and a
section all of whose rows are dropped draws nothing at all — no
title, no commands, cursor and page number unchanged (the state is
returned exactly as it was). -/
theorem C7_empty_rows_dropped :
    ∀ (env : Env) (g : Geom) (d : DocInput) (t : List Char) (st : PState),
      (∀ r : RowInput, rowLabelTrim r = [] ∨ rowValueTrim r = [] → renderRow r = none)
      ∧ (∀ (r : RowInput) (rows : List RowInput), renderRow r = none →
            draw_section env g d t (r :: rows) st = draw_section env g d t rows st)
      ∧ (∀ rows : List RowInput, (∀ r ∈ rows, renderRow r = none) →
            draw_section env g d t rows st = st) := by
  intro env g d t st
  refine ⟨?_, ?_, ?_⟩
  · intro r hr
    rcases hr with hr | hr <;> simp [renderRow, hr]
  · intro r rows hnone
    simp only [draw_section, List.filterMap_cons, hnone]
  · intro rows hall
    have hnil : rows.filterMap renderRow = [] := by
      rw [List.filterMap_eq_nil_iff]
      exact hall
    simp [draw_section, hnil]

/-- Witness for C7: a whitespace-only label and a missing value are
both dropped; a section of only such rows leaves the state alone. -/
theorem C7_empty_rows_dropped_witness :
    (rowLabelTrim ⟨some " ".data, some "x".data⟩ = []
      ∧ renderRow ⟨some " ".data, some "x".data⟩ = none)
    ∧ draw_section env0 a4 doc0 "T".data
        [⟨some " ".data, some "x".data⟩, ⟨some "a".data, none⟩]
        ⟨top_y a4, 1, []⟩
      = ⟨top_y a4, 1, []⟩ :=
  ⟨⟨by decide,
      (C7_empty_rows_dropped env0 a4 doc0 "T".data ⟨top_y a4, 1, []⟩).1
        ⟨some " ".data, some "x".data⟩ (Or.inl (by decide))⟩,
   (C7_empty_rows_dropped env0 a4 doc0 "T".data ⟨top_y a4, 1, []⟩).2.2
      [⟨some " ".data, some "x".data⟩, ⟨some "a".data, none⟩] (by decide)⟩

/-! ### C6: every wrapped line fits, except minimal hard-split lines -/

/-- The line property of C6: a line either fits the wrap width, or
it is a single character that alone exceeds the width (the
hard-split residue, which cannot be shortened further). -/
def FitsOrMinimal (cw : Char → ℤ) (mw : ℤ) (l : List Char) : Prop :=
  strWidth cw l ≤ mw ∨ (l.length = 1 ∧ mw < strWidth cw l)

/-- The invariant carried by the current line / current chunk of
the wrapping loops. -/
def CurOk (cw : Char → ℤ) (mw : ℤ) (l : List Char) : Prop :=
  l = [] ∨ FitsOrMinimal cw mw l

lemma hardSplitAux_fits (cw : Char → ℤ) (mw : ℤ) :
    ∀ (w chunk : List Char) (lines : List (List Char)),
      (∀ l ∈ lines, FitsOrMinimal cw mw l) → CurOk cw mw chunk →
      (∀ l ∈ (hardSplitAux cw mw w chunk lines).1, FitsOrMinimal cw mw l)
        ∧ CurOk cw mw (hardSplitAux cw mw w chunk lines).2 := by
  intro w
  induction w with
  | nil =>
    intro chunk lines hl hc
    exact ⟨hl, hc⟩
  | cons ch rest ih =>
    intro chunk lines hl hc
    simp only [hardSplitAux]
    by_cases hfit : strWidth cw (chunk ++ [ch]) ≤ mw
    · rw [if_pos hfit]
      exact ih (chunk ++ [ch]) lines hl (Or.inr (Or.inl hfit))
    · rw [if_neg hfit]
      refine ih [ch] _ ?_ ?_
      · intro l hmem
        rcases List.mem_append.mp hmem with h | h
        · exact hl l h
        · by_cases hch : chunk = []
          · simp [hch] at h
          · simp only [if_neg hch, List.mem_singleton] at h
            subst h
            rcases hc with h | h
            · exact absurd h hch
            · exact h
      · right
        by_cases hone : strWidth cw [ch] ≤ mw
        · exact Or.inl hone
        · exact Or.inr ⟨rfl, lt_of_not_le hone⟩

lemma packWordsAux_fits (cw : Char → ℤ) (mw : ℤ) :
    ∀ (ws : List (List Char)) (lines : List (List Char)) (cur : List Char),
      (∀ l ∈ lines, FitsOrMinimal cw mw l) → CurOk cw mw cur →
      (∀ l ∈ (packWordsAux cw mw ws lines cur).1, FitsOrMinimal cw mw l)
        ∧ CurOk cw mw (packWordsAux cw mw ws lines cur).2 := by
  intro ws
  induction ws with
  | nil =>
    intro lines cur hl hc
    exact ⟨hl, hc⟩
  | cons w rest ih =>
    intro lines cur hl hc
    simp only [packWordsAux]
    by_cases htrial : strWidth cw (stripChars (cur ++ ' ' :: w)) ≤ mw
    · rw [if_pos htrial]
      exact ih _ _ hl (Or.inr (Or.inl htrial))
    · rw [if_neg htrial]
      have hlines1 : ∀ l ∈ lines ++ if cur = [] then [] else [cur],
          FitsOrMinimal cw mw l := by
        intro l hmem
        rcases List.mem_append.mp hmem with h | h
        · exact hl l h
        · by_cases hcur : cur = []
          · simp [hcur] at h
          · simp only [if_neg hcur, List.mem_singleton] at h
            subst h
            rcases hc with h | h
            · exact absurd h hcur
            · exact h
      by_cases hwide : mw < strWidth cw w
      · rw [if_pos hwide]
        obtain ⟨hs1, hs2⟩ := hardSplitAux_fits cw mw w [] _ hlines1 (Or.inl rfl)
        refine ih _ _ hs1 ?_
        by_cases hch : (hardSplitAux cw mw w []
            (lines ++ if cur = [] then [] else [cur])).2 = []
        · rw [if_pos hch]
          exact Or.inl rfl
        · rw [if_neg hch]
          exact hs2
      · rw [if_neg hwide]
        exact ih _ _ hlines1 (Or.inr (Or.inl (le_of_not_lt hwide)))

lemma wrapParagraph_fits (cw : Char → ℤ) (mw : ℤ) (hmw : 0 < mw) (p : List Char) :
    ∀ l ∈ wrapParagraph cw mw p, FitsOrMinimal cw mw l := by
  intro l hmem
  simp only [wrapParagraph] at hmem
  by_cases hps : stripChars p = []
  · rw [if_pos hps] at hmem
    simp only [List.mem_singleton] at hmem
    subst hmem
    exact Or.inl (by simpa [strWidth] using le_of_lt hmw)
  · rw [if_neg hps] at hmem
    obtain ⟨h1, h2⟩ := packWordsAux_fits cw mw (pyWords (stripChars p)) [] []
      (by intro l h; simp at h) (Or.inl rfl)
    rcases List.mem_append.mp hmem with h | h
    · exact h1 l h
    · by_cases hcur : (packWordsAux cw mw (pyWords (stripChars p)) [] []).2 = []
      · simp [hcur] at h
      · simp only [if_neg hcur, List.mem_singleton] at h
        subst h
        rcases h2 with h | h
        · exact absurd h hcur
        · exact h

lemma wrap_foldl_mem (cw : Char → ℤ) (mw : ℤ) :
    ∀ (ps : List (List Char)) (acc : List (List Char)) (l : List Char),
      l ∈ ps.foldl (fun acc p => acc ++ wrapParagraph cw mw p) acc →
      l ∈ acc ∨ ∃ p ∈ ps, l ∈ wrapParagraph cw mw p := by
  intro ps
  induction ps with
  | nil =>
    intro acc l h
    exact Or.inl h
  | cons p rest ih =>
    intro acc l h
    simp only [List.foldl_cons] at h
    rcases ih _ _ h with h | ⟨q, hq, hl⟩
    · rcases List.mem_append.mp h with h | h
      · exact Or.inl h
      · exact Or.inr ⟨p, List.mem_cons_self _ _, h⟩
    · exact Or.inr ⟨q, List.mem_cons_of_mem _ hq, hl⟩

/-- C6: for all text, all wrap widths `mw > 0` and all font metric
tables, every line returned by `_wrap_text` measures at most `mw`,
except lines produced by the single-oversized-token hard-split
path, which are individually minimal: a lone character whose own
width already exceeds `mw` and which therefore cannot be shortened
to any narrower non-empty line. -/
theorem C6_wrapped_lines_fit :
    ∀ (cw : Char → ℤ) (mw : ℤ), 0 < mw →
      ∀ (text : Option (List Char)) (l : List Char), l ∈ wrap_text text mw cw →
        strWidth cw l ≤ mw ∨ (l.length = 1 ∧ mw < strWidth cw l) := by
  intro cw mw hmw text l hmem
  match text with
  | none =>
    simp only [wrap_text, List.mem_singleton] at hmem
    subst hmem
    exact Or.inl (by simpa [strWidth] using le_of_lt hmw)
  | some t =>
    simp only [wrap_text] at hmem
    split at hmem
    · simp only [List.mem_singleton] at hmem
      subst hmem
      exact Or.inl (by simpa [strWidth] using le_of_lt hmw)
    · rcases wrap_foldl_mem cw mw (splitNl (normNewlines t)) [] l hmem with h | ⟨p, _, hl⟩
      · simp at h
      · exact wrapParagraph_fits cw mw hmw p l hl

/-- Witness for C6 on a text with a short word, a packed pair and
an oversized word, at unit character widths and width 2. -/
theorem C6_wrapped_lines_fit_witness :
    (0 : ℤ) < 2
    ∧ ∀ l ∈ wrap_text (some "ab cde f".data) 2 (fun _ => 1),
        strWidth (fun _ => 1) l ≤ 2 ∨ (l.length = 1 ∧ 2 < strWidth (fun _ => 1) l) :=
  ⟨by decide, fun l hl =>
    C6_wrapped_lines_fit (fun _ => 1) 2 (by decide) (some "ab cde f".data) l hl⟩

/-! ### C10: wrap always terminates with progress -/

lemma normNewlines_id (s : List Char) (h : ∀ c ∈ s, c ≠ '\r') :
    normNewlines s = s := by
  induction s with
  | nil => rfl
  | cons c rest ih =>
    have hc : c ≠ '\r' := h c (List.mem_cons_self _ _)
    have hr : ∀ x ∈ rest, x ≠ '\r' := fun x hx => h x (List.mem_cons_of_mem _ hx)
    rw [normNewlines.eq_def]
    split
    · rename_i heq
      simp at heq
    · rename_i heq
      rw [List.cons.injEq] at heq
      exact absurd heq.1 hc
    · rename_i heq
      rw [List.cons.injEq] at heq
      exact absurd heq.1 hc
    · rename_i heq
      rw [List.cons.injEq] at heq
      obtain ⟨h1, h2⟩ := heq
      subst h1
      subst h2
      rw [ih hr]

lemma splitNl_single (s : List Char) (h : ∀ c ∈ s, c ≠ '\n') :
    splitNl s = [s] := by
  induction s with
  | nil => rfl
  | cons c rest ih =>
    have hc : c ≠ '\n' := h c (List.mem_cons_self _ _)
    have hr : ∀ x ∈ rest, x ≠ '\n' := fun x hx => h x (List.mem_cons_of_mem _ hx)
    rw [splitNl.eq_def]
    split
    · rename_i heq
      simp at heq
    · rename_i heq
      rw [List.cons.injEq] at heq
      exact absurd heq.1 hc
    · rename_i heq
      rw [List.cons.injEq] at heq
      obtain ⟨h1, h2⟩ := heq
      subst h1
      subst h2
      rw [ih hr]

lemma dropWhile_id_of_none (p : Char → Bool) (s : List Char)
    (h : ∀ c ∈ s, p c = false) : s.dropWhile p = s := by
  cases s with
  | nil => rfl
  | cons c rest =>
    rw [List.dropWhile_cons, h c (List.mem_cons_self _ _)]
    simp

lemma stripChars_id_of_nonspace (s : List Char)
    (h : ∀ c ∈ s, pySpace c = false) : stripChars s = s := by
  unfold stripChars
  rw [dropWhile_id_of_none _ _ h,
      dropWhile_id_of_none _ _ (by intro c hc; exact h c (List.mem_reverse.mp hc)),
      List.reverse_reverse]

lemma pyWordsAux_nonspace (s : List Char) (h : ∀ c ∈ s, pySpace c = false) :
    ∀ acc : List Char, pyWordsAux s acc
      = if acc.reverse ++ s = [] then [] else [acc.reverse ++ s] := by
  induction s with
  | nil =>
    intro acc
    rw [pyWordsAux]
    by_cases hacc : acc = []
    · subst hacc; simp
    · rw [if_neg hacc, List.append_nil]
      rw [if_neg (by simpa using hacc)]
  | cons c rest ih =>
    intro acc
    rw [pyWordsAux, h c (List.mem_cons_self _ _)]
    simp only [Bool.false_eq_true, if_false]
    rw [ih (fun x hx => h x (List.mem_cons_of_mem _ hx)) (c :: acc)]
    have hne : acc.reverse ++ c :: rest ≠ [] := by simp
    rw [if_neg (by simp), if_neg hne]
    simp

lemma pyWords_single (w : List Char) (hne : w ≠ [])
    (h : ∀ c ∈ w, pySpace c = false) : pyWords w = [w] := by
  rw [pyWords, pyWordsAux_nonspace w h []]
  simp [hne]

lemma strWidth_cons (cw : Char → ℤ) (c : Char) (s : List Char) :
    strWidth cw (c :: s) = cw c + strWidth cw s := by
  simp [strWidth]

lemma strWidth_nonneg (cw : Char → ℤ) (s : List Char)
    (h : ∀ c ∈ s, 0 ≤ cw c) : 0 ≤ strWidth cw s := by
  induction s with
  | nil => simp [strWidth]
  | cons c rest ih =>
    rw [strWidth_cons]
    have := h c (List.mem_cons_self _ _)
    have := ih (fun x hx => h x (List.mem_cons_of_mem _ hx))
    omega

lemma strWidth_gt (cw : Char → ℤ) (mw : ℤ) (c : Char) (s : List Char)
    (hc : mw < cw c) (h : ∀ x ∈ s, 0 ≤ cw x) : mw < strWidth cw (c :: s) := by
  rw [strWidth_cons]
  have := strWidth_nonneg cw s h
  omega

lemma hardSplitAux_overwide (cw : Char → ℤ) (mw : ℤ) :
    ∀ (rest : List Char) (c : Char) (lines : List (List Char)),
      (0 ≤ cw c ∧ mw < cw c) → (∀ x ∈ rest, 0 ≤ cw x ∧ mw < cw x) →
      (hardSplitAux cw mw rest [c] lines).1 ++ [(hardSplitAux cw mw rest [c] lines).2]
          = lines ++ (c :: rest).map (fun x => [x])
        ∧ (hardSplitAux cw mw rest [c] lines).2 ≠ [] := by
  intro rest
  induction rest with
  | nil =>
    intro c lines _ _
    simp [hardSplitAux]
  | cons d rest' ih =>
    intro c lines hc hrest
    have hd := hrest d (List.mem_cons_self _ _)
    have hrest' : ∀ x ∈ rest', 0 ≤ cw x ∧ mw < cw x :=
      fun x hx => hrest x (List.mem_cons_of_mem _ hx)
    have hwide : ¬ strWidth cw ([c] ++ [d]) ≤ mw := by
      have : strWidth cw [c, d] = cw c + cw d := by simp [strWidth]
      simp only [List.singleton_append]
      omega
    rw [hardSplitAux]
    simp only [if_neg hwide]
    rw [if_neg (by simp : ¬([c] : List Char) = [])]
    have hstep := ih d (lines ++ [[c]]) hd hrest'
    refine ⟨?_, hstep.2⟩
    rw [hstep.1]
    simp

/-- C10: `_wrap_text` terminates and returns a non-empty list of
lines for every input and every `max_width`, including
`max_width ≤ 0`: the embedding is a total structurally-recursive
function, its result is never the empty list, and in the hard-split
path the current chunk is unconditionally replaced by the next
character, so when no single character fits the loop still emits
exactly one character per line instead of looping forever. -/
theorem C10_wrap_terminates_progress :
    (∀ (cw : Char → ℤ) (mw : ℤ) (text : Option (List Char)),
        wrap_text text mw cw ≠ [])
    ∧ (∀ (cw : Char → ℤ) (mw : ℤ) (w : List Char), w ≠ [] →
        (∀ c ∈ w, pySpace c = false) → (∀ c ∈ w, 0 ≤ cw c ∧ mw < cw c) →
        wrap_text (some w) mw cw = w.map (fun c => [c])) := by
  constructor
  · intro cw mw text
    match text with
    | none => simp [wrap_text]
    | some t =>
      simp only [wrap_text]
      split
      · simp
      · next h => exact h
  · intro cw mw w hne hsp hcw
    have hnocr : ∀ c ∈ w, c ≠ '\r' :=
      fun c hc heq => absurd (heq ▸ hsp c hc) (by decide)
    have hnonl : ∀ c ∈ w, c ≠ '\n' :=
      fun c hc heq => absurd (heq ▸ hsp c hc) (by decide)
    obtain ⟨c, rest, rfl⟩ : ∃ c rest, w = c :: rest := by
      cases w with
      | nil => exact absurd rfl hne
      | cons c rest => exact ⟨c, rest, rfl⟩
    have hc := hcw c (List.mem_cons_self _ _)
    have hrest : ∀ x ∈ rest, 0 ≤ cw x ∧ mw < cw x :=
      fun x hx => hcw x (List.mem_cons_of_mem _ hx)
    have hwid : ¬ strWidth cw (c :: rest) ≤ mw :=
      not_le.mpr (strWidth_gt cw mw c rest hc.2 (fun x hx => (hrest x hx).1))
    have hstr : stripChars (([] : List Char) ++ ' ' :: c :: rest) = c :: rest := by
      simp only [List.nil_append]
      unfold stripChars
      rw [List.dropWhile_cons]
      rw [if_pos (by decide : pySpace ' ' = true)]
      rw [dropWhile_id_of_none _ _ hsp,
          dropWhile_id_of_none _ _ (fun x hx => hsp x (List.mem_reverse.mp hx)),
          List.reverse_reverse]
    have hsplit0 : hardSplitAux cw mw (c :: rest) [] []
        = hardSplitAux cw mw rest [c] [] := by
      rw [hardSplitAux]
      have hcc : ¬ strWidth cw (([] : List Char) ++ [c]) ≤ mw := by
        have h1 : strWidth cw (([] : List Char) ++ [c]) = cw c := by simp [strWidth]
        omega
      rw [if_neg hcc]
      simp
    obtain ⟨hsp1, hsp2⟩ := hardSplitAux_overwide cw mw rest c [] hc hrest
    have hpack : packWordsAux cw mw [c :: rest] [] []
        = ((hardSplitAux cw mw rest [c] []).1, (hardSplitAux cw mw rest [c] []).2) := by
      simp only [packWordsAux]
      rw [hstr]
      rw [if_neg hwid]
      rw [if_pos (not_le.mp hwid)]
      simp only [eq_self_iff_true, if_true, List.nil_append, List.append_nil]
      rw [hsplit0]
      rw [if_neg hsp2]
    have hwp : wrapParagraph cw mw (c :: rest)
        = (c :: rest).map (fun x => [x]) := by
      simp only [wrapParagraph]
      rw [stripChars_id_of_nonspace _ hsp]
      rw [if_neg (by simp : (c :: rest) ≠ [])]
      rw [pyWords_single _ (by simp) hsp]
      rw [hpack]
      simp only [if_neg hsp2]
      simpa using hsp1
    simp only [wrap_text]
    rw [normNewlines_id _ hnocr, splitNl_single _ hnonl]
    simp only [List.foldl_cons, List.foldl_nil, List.nil_append]
    rw [hwp]
    rw [if_neg (by simp : (c :: rest).map (fun x => [x]) ≠ [])]

/-- Witness for C10 on the word "abc" at `max_width = -1` with all
character widths 1: the wrapper emits one character per line. -/
theorem C10_wrap_terminates_progress_witness :
    (("abc".data ≠ [])
      ∧ (∀ c ∈ "abc".data, pySpace c = false)
      ∧ (∀ c ∈ "abc".data, (0 : ℤ) ≤ (fun _ => (1 : ℤ)) c ∧ (-1 : ℤ) < (fun _ => (1 : ℤ)) c))
    ∧ wrap_text (some "abc".data) (-1) (fun _ => (1 : ℤ))
        = "abc".data.map (fun c => [c]) :=
  ⟨⟨by decide, by decide, by decide⟩,
    C10_wrap_terminates_progress.2 (fun _ => (1 : ℤ)) (-1) "abc".data
      (by decide) (by decide) (by decide)⟩

/-! ### C5: the source wrapper equals the spec's reference algorithm -/

/-- Modelled on the spec (4.1): one step of the reference
hard-split, "split character by character into as many lines as
needed" — grow the current chunk while it still fits, otherwise
emit it as a line and restart from the offending character (the
final chunk is left as the line under construction). -/
def specHardSplitStep (cw : Char → ℤ) (mw : ℤ)
    (st : List (List Char) × List Char) (ch : Char) : List (List Char) × List Char :=
  if strWidth cw (st.2 ++ [ch]) ≤ mw then (st.1, st.2 ++ [ch])
  else (st.1 ++ if st.2 = [] then [] else [st.2], [ch])

/-- Modelled on the spec (4.1): the reference hard-split of one
over-wide token, as a fold over its characters. -/
def specHardSplit (cw : Char → ℤ) (mw : ℤ) (w : List Char) :
    List (List Char) × List Char :=
  w.foldl (specHardSplitStep cw mw) ([], [])

/-- Modelled on the spec (4.1): one step of the reference greedy
packer on state (emitted lines, current line): extend the current
line by one token while the extended line still measures at most
`maxWidth`; otherwise flush the current line and start a new one
with that token; a token that alone exceeds `maxWidth` is
hard-split. -/
def specPackStep (cw : Char → ℤ) (mw : ℤ)
    (st : List (List Char) × List Char) (w : List Char) : List (List Char) × List Char :=
  let ext := if st.2 = [] then w else st.2 ++ ' ' :: w
  if strWidth cw ext ≤ mw then (st.1, ext)
  else if strWidth cw w ≤ mw then
    (st.1 ++ if st.2 = [] then [] else [st.2], w)
  else
    ((st.1 ++ if st.2 = [] then [] else [st.2]) ++ (specHardSplit cw mw w).1,
     (specHardSplit cw mw w).2)

/-- Modelled on the spec (4.1): wrap one paragraph of the reference
algorithm — a blank paragraph (no tokens) survives as one empty
output line; otherwise the whitespace-delimited tokens are packed
greedily and the last line under construction is flushed. -/
def specWrapParagraph (cw : Char → ℤ) (mw : ℤ) (p : List Char) : List (List Char) :=
  if pyWords p = [] then [[]]
  else
    let r := (pyWords p).foldl (specPackStep cw mw) ([], [])
    r.1 ++ if r.2 = [] then [] else [r.2]

/-- Modelled on the spec (4.1): the reference wrapping algorithm —
unset or empty text yields exactly one empty line, line-break
variants are normalised, each paragraph is wrapped independently
and the results are concatenated in order. -/
def wrapSpec (cw : Char → ℤ) (mw : ℤ) (text : Option (List Char)) : List (List Char) :=
  match text with
  | none => [[]]
  | some t => ((splitNl (normNewlines t)).map (specWrapParagraph cw mw)).flatten

/-- A list with non-whitespace characters at both ends (trivially
true of the empty list).  The invariant of the current line of the
packing loop: it can contain interior joining spaces but never
edge whitespace, so Python's `strip()` leaves it alone. -/
def EdgeOk (l : List Char) : Prop :=
  (∀ h, l.head? = some h → pySpace h = false)
    ∧ (∀ h, l.getLast? = some h → pySpace h = false)

/-- A well-formed token of `str.split()`: non-empty and free of
whitespace. -/
def TokOk (w : List Char) : Prop :=
  w ≠ [] ∧ ∀ c ∈ w, pySpace c = false

lemma TokOk.edgeOk {w : List Char} (h : TokOk w) : EdgeOk w :=
  ⟨fun x hx => h.2 x (List.mem_of_mem_head? hx),
   fun x hx => h.2 x (List.mem_of_mem_getLast? hx)⟩

lemma dropWhile_eq_self_of_edge (l : List Char)
    (h : ∀ x, l.head? = some x → pySpace x = false) :
    l.dropWhile pySpace = l := by
  cases l with
  | nil => rfl
  | cons c rest =>
    rw [List.dropWhile_cons, h c rfl]
    simp

lemma stripChars_eq_self_of_edgeOk (l : List Char) (h : EdgeOk l) :
    stripChars l = l := by
  unfold stripChars
  rw [dropWhile_eq_self_of_edge l h.1]
  rw [dropWhile_eq_self_of_edge l.reverse
    (fun x hx => h.2 x ((List.head?_reverse l) ▸ hx))]
  exact List.reverse_reverse l

lemma stripChars_space_cons (w : List Char) (h : EdgeOk w) :
    stripChars (' ' :: w) = w := by
  unfold stripChars
  rw [List.dropWhile_cons]
  rw [if_pos (by decide : pySpace ' ' = true)]
  rw [dropWhile_eq_self_of_edge w h.1]
  rw [dropWhile_eq_self_of_edge w.reverse
    (fun x hx => h.2 x ((List.head?_reverse w) ▸ hx))]
  exact List.reverse_reverse w

lemma edgeOk_join (cur w : List Char) (hne : cur ≠ []) (hcur : EdgeOk cur)
    (hw : TokOk w) : EdgeOk (cur ++ ' ' :: w) := by
  constructor
  · intro x hx
    cases cur with
    | nil => exact absurd rfl hne
    | cons c rest =>
      simp only [List.cons_append, List.head?_cons, Option.some.injEq] at hx
      exact hcur.1 x (by rw [List.head?_cons, hx])
  · intro x hx
    rw [List.getLast?_append_of_ne_nil cur
      (by simp : (' ' :: w) ≠ ([] : List Char))] at hx
    rw [show (' ' :: w) = [' '] ++ w from rfl,
      List.getLast?_append_of_ne_nil [' '] hw.1] at hx
    exact hw.edgeOk.2 x hx

lemma specHS_fold_acc (cw : Char → ℤ) (mw : ℤ) :
    ∀ (w : List Char) (A : List (List Char)) (chunk : List Char),
      w.foldl (specHardSplitStep cw mw) (A, chunk)
        = (A ++ (w.foldl (specHardSplitStep cw mw) ([], chunk)).1,
           (w.foldl (specHardSplitStep cw mw) ([], chunk)).2) := by
  intro w
  induction w with
  | nil =>
    intro A chunk
    simp
  | cons ch rest ih =>
    intro A chunk
    simp only [List.foldl_cons]
    by_cases hfit : strWidth cw (chunk ++ [ch]) ≤ mw
    · rw [show specHardSplitStep cw mw (A, chunk) ch = (A, chunk ++ [ch]) from by
          simp [specHardSplitStep, hfit],
        show specHardSplitStep cw mw ([], chunk) ch = ([], chunk ++ [ch]) from by
          simp [specHardSplitStep, hfit]]
      exact ih A (chunk ++ [ch])
    · rw [show specHardSplitStep cw mw (A, chunk) ch
            = (A ++ if chunk = [] then [] else [chunk], [ch]) from by
          simp [specHardSplitStep, hfit],
        show specHardSplitStep cw mw ([], chunk) ch
            = ([] ++ if chunk = [] then [] else [chunk], [ch]) from by
          simp [specHardSplitStep, hfit]]
      rw [ih (A ++ if chunk = [] then [] else [chunk]) [ch],
        ih ([] ++ if chunk = [] then [] else [chunk]) [ch]]
      simp

lemma hardSplitAux_eq_spec (cw : Char → ℤ) (mw : ℤ) :
    ∀ (w chunk : List Char) (lines : List (List Char)),
      hardSplitAux cw mw w chunk lines
        = (lines ++ (w.foldl (specHardSplitStep cw mw) ([], chunk)).1,
           (w.foldl (specHardSplitStep cw mw) ([], chunk)).2) := by
  intro w
  induction w with
  | nil =>
    intro chunk lines
    simp [hardSplitAux]
  | cons ch rest ih =>
    intro chunk lines
    simp only [hardSplitAux, List.foldl_cons]
    by_cases hfit : strWidth cw (chunk ++ [ch]) ≤ mw
    · rw [if_pos hfit]
      rw [show specHardSplitStep cw mw ([], chunk) ch = ([], chunk ++ [ch]) from by
          simp [specHardSplitStep, hfit]]
      exact ih (chunk ++ [ch]) lines
    · rw [if_neg hfit]
      rw [show specHardSplitStep cw mw ([], chunk) ch
            = ([] ++ if chunk = [] then [] else [chunk], [ch]) from by
          simp [specHardSplitStep, hfit]]
      rw [ih [ch] (lines ++ if chunk = [] then [] else [chunk])]
      rw [specHS_fold_acc cw mw rest ([] ++ if chunk = [] then [] else [chunk]) [ch]]
      simp

lemma specHS_chunk_ne (cw : Char → ℤ) (mw : ℤ) :
    ∀ (w : List Char) (st : List (List Char) × List Char),
      (st.2 ≠ [] ∨ w ≠ []) →
      (w.foldl (specHardSplitStep cw mw) st).2 ≠ [] := by
  intro w
  induction w with
  | nil =>
    intro st h
    rcases h with h | h
    · exact h
    · exact absurd rfl h
  | cons ch rest ih =>
    intro st _
    simp only [List.foldl_cons]
    refine ih _ (Or.inl ?_)
    simp only [specHardSplitStep]
    split <;> simp

lemma specHS_chunk_edge (cw : Char → ℤ) (mw : ℤ) :
    ∀ (w : List Char) (st : List (List Char) × List Char),
      (∀ c ∈ w, pySpace c = false) → EdgeOk st.2 →
      EdgeOk (w.foldl (specHardSplitStep cw mw) st).2 := by
  intro w
  induction w with
  | nil =>
    intro st _ h
    exact h
  | cons ch rest ih =>
    intro st hw hchunk
    simp only [List.foldl_cons]
    have hch : pySpace ch = false := hw ch (List.mem_cons_self _ _)
    have hrest : ∀ c ∈ rest, pySpace c = false :=
      fun c hc => hw c (List.mem_cons_of_mem _ hc)
    refine ih _ hrest ?_
    simp only [specHardSplitStep]
    split
    · constructor
      · intro x hx
        cases hc2 : st.2 with
        | nil =>
          rw [hc2] at hx
          simp only [List.nil_append, List.head?_cons, Option.some.injEq] at hx
          rw [← hx]
          exact hch
        | cons a rest2 =>
          rw [hc2] at hx
          simp only [List.cons_append, List.head?_cons, Option.some.injEq] at hx
          refine hchunk.1 x ?_
          rw [hc2, List.head?_cons, hx]
      · intro x hx
        rw [List.getLast?_append_of_ne_nil st.2
          (by simp : ([ch] : List Char) ≠ [])] at hx
        simp only [List.getLast?_singleton, Option.some.injEq] at hx
        rw [← hx]
        exact hch
    · constructor
      · intro x hx
        simp only [List.head?_cons, Option.some.injEq] at hx
        rw [← hx]
        exact hch
      · intro x hx
        simp only [List.getLast?_singleton, Option.some.injEq] at hx
        rw [← hx]
        exact hch

lemma pyWordsAux_tokOk :
    ∀ (s acc : List Char), (∀ c ∈ acc, pySpace c = false) →
      ∀ w ∈ pyWordsAux s acc, TokOk w := by
  intro s
  induction s with
  | nil =>
    intro acc hacc w hw
    rw [pyWordsAux] at hw
    split at hw
    · simp at hw
    · next hne =>
      simp only [List.mem_singleton] at hw
      subst hw
      exact ⟨by simpa using hne, fun c hc => hacc c (List.mem_reverse.mp hc)⟩
  | cons c rest ih =>
    intro acc hacc w hw
    rw [pyWordsAux] at hw
    by_cases hsp : pySpace c
    · rw [if_pos hsp] at hw
      split at hw
      · exact ih [] (by simp) w hw
      · next hne =>
        rcases List.mem_cons.mp hw with h | h
        · subst h
          exact ⟨by simpa using hne, fun x hx => hacc x (List.mem_reverse.mp hx)⟩
        · exact ih [] (by simp) w h
    · rw [if_neg hsp] at hw
      refine ih (c :: acc) ?_ w hw
      intro x hx
      rcases List.mem_cons.mp hx with h | h
      · subst h
        exact Bool.eq_false_iff.mpr hsp
      · exact hacc x h

lemma pyWords_tokOk (s : List Char) : ∀ w ∈ pyWords s, TokOk w :=
  pyWordsAux_tokOk s [] (by simp)

lemma pyWordsAux_dropWhile (s : List Char) :
    pyWordsAux (s.dropWhile pySpace) [] = pyWordsAux s [] := by
  induction s with
  | nil => rfl
  | cons c rest ih =>
    rw [List.dropWhile_cons]
    by_cases hsp : pySpace c
    · rw [if_pos hsp, ih]
      rw [pyWordsAux, if_pos hsp, if_pos rfl]
    · rw [if_neg hsp]

lemma pyWordsAux_all_space (sp : List Char) (h : ∀ c ∈ sp, pySpace c = true) :
    ∀ acc : List Char, pyWordsAux sp acc = if acc = [] then [] else [acc.reverse] := by
  induction sp with
  | nil =>
    intro acc
    rw [pyWordsAux]
  | cons c rest ih =>
    intro acc
    rw [pyWordsAux, if_pos (h c (List.mem_cons_self _ _))]
    have hr : ∀ x ∈ rest, pySpace x = true := fun x hx => h x (List.mem_cons_of_mem _ hx)
    by_cases hacc : acc = []
    · rw [if_pos hacc, if_pos hacc, ih hr, if_pos rfl]
    · rw [if_neg hacc, if_neg hacc, ih hr, if_pos rfl]

lemma pyWordsAux_append_space (t : List Char) :
    ∀ (sp acc : List Char), (∀ c ∈ sp, pySpace c = true) →
      pyWordsAux (t ++ sp) acc = pyWordsAux t acc := by
  induction t with
  | nil =>
    intro sp acc hsp
    rw [List.nil_append, pyWordsAux_all_space sp hsp acc, pyWordsAux]
  | cons c t' ih =>
    intro sp acc hsp
    rw [List.cons_append, pyWordsAux, pyWordsAux]
    by_cases hc : pySpace c
    · rw [if_pos hc, if_pos hc]
      by_cases hacc : acc = []
      · rw [if_pos hacc, if_pos hacc, ih sp [] hsp]
      · rw [if_neg hacc, if_neg hacc, ih sp [] hsp]
    · rw [if_neg hc, if_neg hc, ih sp (c :: acc) hsp]

lemma pyWords_stripChars (s : List Char) :
    pyWords (stripChars s) = pyWords s := by
  have hdec : s.dropWhile pySpace
      = ((s.dropWhile pySpace).reverse.dropWhile pySpace).reverse
        ++ ((s.dropWhile pySpace).reverse.takeWhile pySpace).reverse := by
    conv_lhs => rw [← List.reverse_reverse (s.dropWhile pySpace)]
    rw [← List.takeWhile_append_dropWhile pySpace (s.dropWhile pySpace).reverse]
    rw [List.reverse_append]
    rw [List.takeWhile_append_dropWhile]
  have hsp : ∀ c ∈ ((s.dropWhile pySpace).reverse.takeWhile pySpace).reverse,
      pySpace c = true := by
    intro c hc
    exact List.mem_takeWhile_imp (List.mem_reverse.mp hc)
  unfold pyWords
  unfold stripChars
  rw [← pyWordsAux_dropWhile s]
  conv_rhs => rw [hdec]
  rw [pyWordsAux_append_space _ _ [] hsp]

lemma pyWordsAux_ne_nil_of_acc :
    ∀ (s acc : List Char), acc ≠ [] → pyWordsAux s acc ≠ [] := by
  intro s
  induction s with
  | nil =>
    intro acc hacc
    rw [pyWordsAux, if_neg hacc]
    simp
  | cons c rest ih =>
    intro acc hacc
    rw [pyWordsAux]
    by_cases hc : pySpace c
    · rw [if_pos hc, if_neg hacc]
      simp
    · rw [if_neg hc]
      exact ih (c :: acc) (by simp)

lemma all_space_of_pyWords_nil :
    ∀ s : List Char, pyWords s = [] → ∀ c ∈ s, pySpace c = true := by
  intro s
  unfold pyWords
  induction s with
  | nil => intro _ c hc; simp at hc
  | cons c rest ih =>
    intro h x hx
    rw [pyWordsAux] at h
    by_cases hc : pySpace c
    · rw [if_pos hc, if_pos rfl] at h
      rcases List.mem_cons.mp hx with he | he
      · subst he; exact hc
      · exact ih h x he
    · rw [if_neg hc] at h
      exact absurd h (pyWordsAux_ne_nil_of_acc rest [c] (by simp))

lemma stripChars_nil_iff_pyWords_nil (s : List Char) :
    stripChars s = [] ↔ pyWords s = [] := by
  constructor
  · intro h
    rw [← pyWords_stripChars s, h]
    rfl
  · intro h
    have hall := all_space_of_pyWords_nil s h
    unfold stripChars
    rw [List.dropWhile_eq_nil_iff.mpr (fun a ha => hall a ha)]
    rfl

lemma splitNl_ne_nil (s : List Char) : splitNl s ≠ [] := by
  rw [splitNl.eq_def]
  split
  · simp
  · simp
  · split <;> simp

lemma edgeOk_nil : EdgeOk [] := by
  constructor
  · intro x hx
    simp at hx
  · intro x hx
    simp at hx

lemma packWordsAux_eq_spec (cw : Char → ℤ) (mw : ℤ) :
    ∀ (ws : List (List Char)) (lines : List (List Char)) (cur : List Char),
      (∀ w ∈ ws, TokOk w) → EdgeOk cur →
      packWordsAux cw mw ws lines cur
        = ws.foldl (specPackStep cw mw) (lines, cur) := by
  intro ws
  induction ws with
  | nil =>
    intro lines cur _ _
    rfl
  | cons w ws' ih =>
    intro lines cur hws hcur
    have hw : TokOk w := hws w (List.mem_cons_self _ _)
    have hws' : ∀ x ∈ ws', TokOk x := fun x hx => hws x (List.mem_cons_of_mem _ hx)
    have htrial : stripChars (cur ++ ' ' :: w)
        = (if cur = [] then w else cur ++ ' ' :: w) := by
      by_cases hc : cur = []
      · rw [if_pos hc, hc, List.nil_append, stripChars_space_cons w hw.edgeOk]
      · rw [if_neg hc]
        exact stripChars_eq_self_of_edgeOk _ (edgeOk_join cur w hc hcur hw)
    simp only [packWordsAux, List.foldl_cons, specPackStep, specHardSplit]
    rw [htrial]
    by_cases hfit : strWidth cw (if cur = [] then w else cur ++ ' ' :: w) ≤ mw
    · rw [if_pos hfit, if_pos hfit]
      refine ih _ _ hws' ?_
      by_cases hc : cur = []
      · rw [if_pos hc]
        exact hw.edgeOk
      · rw [if_neg hc]
        exact edgeOk_join cur w hc hcur hw
    · rw [if_neg hfit, if_neg hfit]
      by_cases hwfit : strWidth cw w ≤ mw
      · rw [if_neg (not_lt.mpr hwfit), if_pos hwfit]
        exact ih _ _ hws' hw.edgeOk
      · rw [if_pos (not_le.mp hwfit), if_neg hwfit]
        rw [hardSplitAux_eq_spec cw mw w []
          (lines ++ if cur = [] then [] else [cur])]
        dsimp only
        have hch : (w.foldl (specHardSplitStep cw mw) ([], [])).2 ≠ [] :=
          specHS_chunk_ne cw mw w ([], []) (Or.inr hw.1)
        rw [if_neg hch]
        refine ih _ _ hws' ?_
        exact specHS_chunk_edge cw mw w ([], []) hw.2 edgeOk_nil

lemma specPack_last_ne (cw : Char → ℤ) (mw : ℤ) :
    ∀ (ws : List (List Char)) (st : List (List Char) × List Char),
      (∀ w ∈ ws, TokOk w) → (st.2 ≠ [] ∨ ws ≠ []) →
      (ws.foldl (specPackStep cw mw) st).2 ≠ [] := by
  intro ws
  induction ws with
  | nil =>
    intro st _ h
    rcases h with h | h
    · exact h
    · exact absurd rfl h
  | cons w ws' ih =>
    intro st hws _
    have hw : TokOk w := hws w (List.mem_cons_self _ _)
    have hws' : ∀ x ∈ ws', TokOk x := fun x hx => hws x (List.mem_cons_of_mem _ hx)
    simp only [List.foldl_cons]
    refine ih _ hws' (Or.inl ?_)
    simp only [specPackStep, specHardSplit]
    by_cases hfit : strWidth cw (if st.2 = [] then w else st.2 ++ ' ' :: w) ≤ mw
    · rw [if_pos hfit]
      by_cases hc : st.2 = []
      · simpa [hc] using hw.1
      · simp [hc]
    · rw [if_neg hfit]
      by_cases hwfit : strWidth cw w ≤ mw
      · rw [if_pos hwfit]
        exact hw.1
      · rw [if_neg hwfit]
        exact specHS_chunk_ne cw mw w ([], []) (Or.inr hw.1)

lemma specWrapParagraph_ne_nil (cw : Char → ℤ) (mw : ℤ) (p : List Char) :
    specWrapParagraph cw mw p ≠ [] := by
  simp only [specWrapParagraph]
  by_cases hb : pyWords p = []
  · rw [if_pos hb]
    simp
  · rw [if_neg hb]
    have := specPack_last_ne cw mw (pyWords p) ([], []) (pyWords_tokOk p) (Or.inr hb)
    rw [if_neg this]
    simp

lemma specWrapParagraph_eq (cw : Char → ℤ) (mw : ℤ) (p : List Char) :
    wrapParagraph cw mw p = specWrapParagraph cw mw p := by
  by_cases hb : pyWords p = []
  · have hs : stripChars p = [] := (stripChars_nil_iff_pyWords_nil p).mpr hb
    simp only [wrapParagraph, specWrapParagraph]
    rw [if_pos hs, if_pos hb]
  · have hs : stripChars p ≠ [] :=
      fun h => hb ((stripChars_nil_iff_pyWords_nil p).mp h)
    simp only [wrapParagraph, specWrapParagraph]
    rw [if_neg hs, if_neg hb]
    rw [pyWords_stripChars p]
    rw [packWordsAux_eq_spec cw mw (pyWords p) [] [] (pyWords_tokOk p) edgeOk_nil]

lemma foldl_append_eq_flatten (f : List Char → List (List Char)) :
    ∀ (ps : List (List Char)) (acc : List (List Char)),
      ps.foldl (fun a p => a ++ f p) acc = acc ++ (ps.map f).flatten := by
  intro ps
  induction ps with
  | nil =>
    intro acc
    simp
  | cons p rest ih =>
    intro acc
    simp only [List.foldl_cons, List.map_cons, List.flatten_cons]
    rw [ih (acc ++ f p), List.append_assoc]

/-- C5: `_wrap_text` equals the spec's reference wrapping algorithm
(4.1): unset text yields one empty line; line-break variants are
normalised and each paragraph wrapped independently with blank
paragraphs surviving as empty lines; within a paragraph the
whitespace-delimited tokens are packed greedily against the
measured width, a token wider than the wrap width is hard-split
character by character, and the residue of a hard split continues
the line under construction.  `wrapSpec` is built from the spec's
words; this theorem proves it extensionally equal to the source's
`_wrap_text` embedding. -/
theorem C5_wrap_matches_reference :
    ∀ (cw : Char → ℤ) (mw : ℤ) (text : Option (List Char)),
      wrap_text text mw cw = wrapSpec cw mw text := by
  intro cw mw text
  match text with
  | none => rfl
  | some t =>
    simp only [wrap_text, wrapSpec]
    rw [foldl_append_eq_flatten (wrapParagraph cw mw) (splitNl (normNewlines t)) []]
    rw [List.nil_append]
    have hmap : (splitNl (normNewlines t)).map (wrapParagraph cw mw)
        = (splitNl (normNewlines t)).map (specWrapParagraph cw mw) :=
      List.map_congr_left (fun p _ => specWrapParagraph_eq cw mw p)
    rw [hmap]
    have hJ : ((splitNl (normNewlines t)).map (specWrapParagraph cw mw)).flatten
        ≠ [] := by
      rcases hsp : splitNl (normNewlines t) with _ | ⟨p, ps⟩
      · exact absurd hsp (splitNl_ne_nil _)
      · simp only [List.map_cons, List.flatten_cons]
        intro h
        rcases List.append_eq_nil.mp h with ⟨h1, _⟩
        exact specWrapParagraph_ne_nil cw mw p h1
    rw [if_neg hJ]
